import Mathlib

/-!
# Verification of the Mandelbrot renderer (src/main.rs)

Shallow embedding of the program in `src/main.rs`.  The program's `f64`
arithmetic is modelled exactly by rational numbers `ℚ` (all the spec-level
properties below are about the exact real-arithmetic behaviour; the spec's
"within floating-point tolerance" is satisfied by exact equality).  Machine
integers (`u8`, `u32`, `usize`) are modelled as `ℕ` with explicit `% 256`
where the source casts to `u8`.  A complex number `num::Complex<f64>` is a
pair `ℚ × ℚ` of (re, im).
-/

namespace Mandel

/-- `num::Complex` multiplication: `(a+bi)(c+di) = (ac-bd) + (ad+bc)i`. -/
def cmul (x y : ℚ × ℚ) : ℚ × ℚ :=
  (x.1 * y.1 - x.2 * y.2, x.1 * y.2 + x.2 * y.1)

/-- `num::Complex` addition. -/
def cadd (x y : ℚ × ℚ) : ℚ × ℚ := (x.1 + y.1, x.2 + y.2)

/-- `Complex::norm_sqr`: `re*re + im*im`. -/
def norm_sqr (x : ℚ × ℚ) : ℚ := x.1 * x.1 + x.2 * x.2

/-- The loop body of `escapes` (src/main.rs lines 70-79): `fuel` is the number
of remaining iterations, `i` the current 0-based loop index.  Each iteration
does `z = z*z + c` and returns `some i` as soon as `norm_sqr z > 4`. -/
def escapesAux (c : ℚ × ℚ) : ℚ × ℚ → ℕ → ℕ → Option ℕ
  | _, _, 0 => none
  | z, i, fuel + 1 =>
    let z2 := cadd (cmul z z) c
    if 4 < norm_sqr z2 then some i else escapesAux c z2 (i + 1) fuel

/-- `fn escapes(mut z, c, limit) -> Option<u32>` (src/main.rs lines 70-79). -/
def escapes (z c : ℚ × ℚ) (limit : ℕ) : Option ℕ := escapesAux c z 0 limit

/-- `fn pixel_to_point(bounds, pixel, upper_left, lower_right)`
(src/main.rs lines 45-57).  `bounds = (width, height)` in pixels,
`pixel = (col, row)`; returns the complex-plane point of the pixel's
upper-left corner. -/
def pixel_to_point (bounds pixel : ℕ × ℕ) (upper_left lower_right : ℚ × ℚ) :
    ℚ × ℚ :=
  (upper_left.1 + (pixel.1 : ℚ) * (lower_right.1 - upper_left.1) / (bounds.1 : ℚ),
   upper_left.2 - (pixel.2 : ℚ) * (upper_left.2 - lower_right.2) / (bounds.2 : ℚ))

/-- The byte written for one pixel by `render` (src/main.rs lines 97-101):
`escapes(point, param, 255)` — note the mapped `point` is the *initial z*
and `param` (the CLI argument `C`) is the additive parameter — then
`None => 0`, `Some(count) => 255 - count as u8`.  The `u32 → u8` cast is
`% 256`; the `u8` subtraction `255 - k` with `k ≤ 255` never underflows,
so plain `ℕ` subtraction models it exactly. -/
def pixelColor (param point : ℚ × ℚ) : ℕ :=
  match escapes point param 255 with
  | none => 0
  | some count => 255 - count % 256

/-- Unfolding `pixelColor` on a bounded classification. -/
theorem pixelColor_none (param point : ℚ × ℚ)
    (h : escapes point param 255 = none) : pixelColor param point = 0 := by
  unfold pixelColor; rw [h]

/-- Unfolding `pixelColor` on an escape at index `k`. -/
theorem pixelColor_some (param point : ℚ × ℚ) (k : ℕ)
    (h : escapes point param 255 = some k) :
    pixelColor param point = 255 - k % 256 := by
  unfold pixelColor; rw [h]

/-- The double write loop of `render` (src/main.rs lines 93-103):
for each row `r < bounds.2` and column `c < bounds.1`, write
`pixels[r * bounds.1 + c] := pixelColor param (pixel_to_point ...)`. -/
def renderLoop (param : ℚ × ℚ) (bounds : ℕ × ℕ) (ul lr : ℚ × ℚ)
    (pixels : List ℕ) : List ℕ :=
  (List.range bounds.2).foldl (fun b r =>
    (List.range bounds.1).foldl (fun b2 c =>
      b2.set (r * bounds.1 + c)
        (pixelColor param (pixel_to_point bounds (c, r) ul lr))) b) pixels

/-- `fn render(param, pixels, bounds, upper_left, lower_right)`
(src/main.rs lines 87-104).  The `assert!(pixels.len() == bounds.0 * bounds.1)`
on line 91 runs before any write; a failed assertion (a Rust panic, aborting
the render with no byte written) is modelled as `none`. -/
def render (param : ℚ × ℚ) (pixels : List ℕ) (bounds : ℕ × ℕ)
    (ul lr : ℚ × ℚ) : Option (List ℕ) :=
  if pixels.length = bounds.1 * bounds.2 then
    some (renderLoop param bounds ul lr pixels)
  else
    none

/-- Helper for C7: with `z = c = (0,0)` every iterate stays `(0,0)`, whose
squared norm `0` never exceeds `4`. -/
theorem escapesAux_zero (i fuel : ℕ) : escapesAux (0, 0) (0, 0) i fuel = none := by
  induction fuel generalizing i with
  | zero => rfl
  | succ n ih =>
    show escapesAux (0, 0) (0, 0) i (n + 1) = none
    unfold escapesAux
    norm_num [cmul, cadd, norm_sqr]
    exact ih (i + 1)

/-- C7: for the parameter c = (0,0) and every iteration limit, `escapes`
started from z = (0,0) returns `none` (bounded). -/
theorem claim_C7 (limit : ℕ) : escapes (0, 0) (0, 0) limit = none :=
  escapesAux_zero 0 limit

/-- C8: for the parameter c = (5,5) and every iteration limit ≥ 1, `escapes`
started from z = (0,0) returns `some 0`: after the first iteration
`z = (5,5)` and `norm_sqr z = 50 > 4`. -/
theorem claim_C8 (limit : ℕ) (h : 1 ≤ limit) : escapes (0, 0) (5, 5) limit = some 0 := by
  obtain ⟨n, rfl⟩ : ∃ n, limit = n + 1 := ⟨limit - 1, (Nat.succ_pred_eq_of_pos h).symm⟩
  show escapesAux (5, 5) (0, 0) 0 (n + 1) = some 0
  unfold escapesAux
  norm_num [cmul, cadd, norm_sqr]

/-- Witness for C8 at the concrete limit 1. -/
theorem claim_C8_witness : 1 ≤ 1 ∧ escapes (0, 0) (5, 5) 1 = some 0 :=
  ⟨by decide, claim_C8 1 (by decide)⟩

/-- C5: for positive bounds, `pixel_to_point` sends pixel (0,0) exactly to
`upper_left` and pixel (width, height) exactly to `lower_right` (the model's
rational arithmetic is exact, which is within any floating-point tolerance). -/
theorem claim_C5 (w h : ℕ) (hw : 0 < w) (hh : 0 < h) (ul lr : ℚ × ℚ) :
    pixel_to_point (w, h) (0, 0) ul lr = ul ∧
    pixel_to_point (w, h) (w, h) ul lr = lr := by
  have hw' : (w : ℚ) ≠ 0 := Nat.cast_ne_zero.mpr (Nat.pos_iff_ne_zero.mp hw)
  have hh' : (h : ℚ) ≠ 0 := Nat.cast_ne_zero.mpr (Nat.pos_iff_ne_zero.mp hh)
  constructor
  · simp [pixel_to_point]
  · unfold pixel_to_point
    apply Prod.ext
    · show ul.1 + (w : ℚ) * (lr.1 - ul.1) / (w : ℚ) = lr.1
      field_simp
    · show ul.2 - (h : ℚ) * (ul.2 - lr.2) / (h : ℚ) = lr.2
      field_simp

/-- Witness for C5 at bounds (100, 100), the rectangle of the repository's
own `test_pixel_to_point`. -/
theorem claim_C5_witness :
    pixel_to_point (100, 100) (0, 0) (-1, 1) (1, -1) = ((-1 : ℚ), (1 : ℚ)) ∧
    pixel_to_point (100, 100) (100, 100) (-1, 1) (1, -1) = ((1 : ℚ), (-1 : ℚ)) :=
  claim_C5 100 100 (by decide) (by decide) (-1, 1) (1, -1)

/-- C6: `render` checks `pixels.len() == bounds.0 * bounds.1` before its
first write; on a mismatched buffer it aborts (Rust `assert!` panic, modelled
as `none`) without writing any byte. -/
theorem claim_C6 (param : ℚ × ℚ) (pixels : List ℕ) (bounds : ℕ × ℕ)
    (ul lr : ℚ × ℚ) (hlen : pixels.length ≠ bounds.1 * bounds.2) :
    render param pixels bounds ul lr = none := by
  simp [render, hlen]

/-- Witness for C6: a 2-byte buffer with stated bounds 1×1 aborts. -/
theorem claim_C6_witness : render (0, 0) [0, 0] (1, 1) (0, 0) (1, -1) = none :=
  claim_C6 (0, 0) [0, 0] (1, 1) (0, 0) (1, -1) (by decide)

/-- Helper for C10: `escapes` only ever reports loop indices below the
iteration budget. -/
theorem escapesAux_lt (c : ℚ × ℚ) :
    ∀ (z : ℚ × ℚ) (i fuel j : ℕ), escapesAux c z i fuel = some j → j < i + fuel := by
  intro z i fuel
  induction fuel generalizing z i with
  | zero => intro j hj; exact absurd hj (by simp [escapesAux])
  | succ n ih =>
    intro j hj
    unfold escapesAux at hj
    by_cases hesc : 4 < norm_sqr (cadd (cmul z z) c)
    · rw [if_pos hesc] at hj
      obtain rfl : i = j := by injection hj
      omega
    · rw [if_neg hesc] at hj
      have := ih (cadd (cmul z z) c) (i + 1) j hj
      omega

/-- C10: an escape index returned by `escapes` is strictly below the limit;
with the rasterizer's limit 255 the written byte `255 - count as u8` is
exact (no truncation in the cast, no underflow in the subtraction), lies in
[1, 255] for every escaped pixel, and the byte 0 is written only for points
classified as bounded. -/
theorem claim_C10 :
    (∀ (z c : ℚ × ℚ) (limit j : ℕ), escapes z c limit = some j → j < limit) ∧
    (∀ (z c : ℚ × ℚ) (j : ℕ), escapes z c 255 = some j →
      pixelColor c z = 255 - j ∧ 1 ≤ pixelColor c z ∧ pixelColor c z ≤ 255) ∧
    (∀ z c : ℚ × ℚ, pixelColor c z = 0 → escapes z c 255 = none) := by
  refine ⟨?_, ?_, ?_⟩
  · intro z c limit j hj
    have := escapesAux_lt c z 0 limit j hj
    omega
  · intro z c j hj
    have hlt : j < 255 := by
      have := escapesAux_lt c z 0 255 j hj
      omega
    have hmod : j % 256 = j := Nat.mod_eq_of_lt (by omega)
    rw [pixelColor_some c z j hj, hmod]
    omega
  · intro z c h0
    cases hj : escapes z c 255 with
    | none => rfl
    | some j =>
      rw [pixelColor_some c z j hj] at h0
      have hlt : j < 255 := by
        have := escapesAux_lt c z 0 255 j hj
        omega
      have hmod : j % 256 = j := Nat.mod_eq_of_lt (by omega)
      rw [hmod] at h0
      omega

/-- Evaluation fact: from z = (0,0) with c = (5,5) the orbit escapes at the
first check (`z₁ = (5,5)`, `norm_sqr z₁ = 50 > 4`), also with budget 255. -/
theorem escapes_five : escapes (0, 0) (5, 5) 255 = some 0 := by
  show escapesAux (5, 5) (0, 0) 0 (254 + 1) = some 0
  unfold escapesAux
  norm_num [cmul, cadd, norm_sqr]

/-- Witness for C10 at z = (0,0), c = (5,5): escape index 0 < 255 and byte
255. -/
theorem claim_C10_witness :
    (0 : ℕ) < 255 ∧ pixelColor (5, 5) (0, 0) = 255 :=
  ⟨claim_C10.1 (0, 0) (5, 5) 255 0 escapes_five,
   (claim_C10.2.1 (0, 0) (5, 5) 0 escapes_five).1⟩

/-!
## The work partitioner

`main` (src/main.rs lines 161-182) splits the `bounds.0 * bounds.1`-byte
buffer with `AtomicChunksMut::new(&mut pixels, bounds.0)`: the
`atomic_chunks_mut` crate (external, modelled from its documented
`chunks_mut`-style semantics) yields the successive non-overlapping chunks
of `bounds.0` bytes — i.e. exactly one pixel row per chunk — each paired
with its chunk index; 8 spawned workers pull (chunk index, chunk) pairs
from the shared atomic iterator until it is exhausted.  The set of chunks
is fixed by the buffer length and chunk size alone; only their assignment
to workers is scheduling-dependent.
-/

/-- Number of chunks `AtomicChunksMut` yields: `⌈len / size⌉`. -/
def numChunks (len size : ℕ) : ℕ := (len + size - 1) / size

/-- The bands (byte ranges, as (start, length) pairs) of the partitioner:
chunk `k` starts at byte `k * size` and has `size` bytes, except that the
last chunk is shorter when `size` does not divide `len`. -/
def bands (len size : ℕ) : List (ℕ × ℕ) :=
  (List.range (numChunks len size)).map (fun k => (k * size, min size (len - k * size)))

/-- On a `w * h`-byte buffer with chunk size `w` (the partitioner's actual
use) there are exactly `h` bands and band `k` is exactly row `k`:
bytes `[k*w, k*w + w)`. -/
theorem bands_eq (w h : ℕ) (hw : 0 < w) :
    bands (w * h) w = (List.range h).map (fun k => (k * w, w)) := by
  have hchunks : numChunks (w * h) w = h := by
    unfold numChunks
    have h1 : w * h + w - 1 = (w - 1) + w * h := by omega
    rw [h1, Nat.add_mul_div_left _ _ hw, Nat.div_eq_of_lt (by omega)]
    omega
  unfold bands
  rw [hchunks]
  apply List.map_congr_left
  intro k hk
  have hk' : k < h := List.mem_range.mp hk
  have hmul : w * (k + 1) ≤ w * h := Nat.mul_le_mul_left w hk'
  have : w * (k + 1) = w * k + w := by ring
  have hmin : min w (w * h - k * w) = w := by
    apply min_eq_left
    have : k * w = w * k := Nat.mul_comm k w
    omega
  rw [hmin]

/-- C2: for every width ≥ 1 and height (hence every worker count — the band
set produced by `AtomicChunksMut` does not depend on how many workers pull
from it), the partitioner's bands are one per row, and every byte index of
the `w * h`-byte buffer lies in the byte range of exactly one band: the
union of the bands covers the buffer exactly once, with no gap and no
overlap, and the row ranges partition `[0, height)`. -/
theorem claim_C2 (w h : ℕ) (hw : 0 < w) :
    (bands (w * h) w).length = h ∧
    (∀ k, k < h → (bands (w * h) w).get? k = some (k * w, w)) ∧
    (∀ j, j < w * h → ∃! k, k < h ∧ k * w ≤ j ∧ j < k * w + w) := by
  refine ⟨?_, ?_, ?_⟩
  · rw [bands_eq w h hw]; simp
  · intro k hk
    rw [bands_eq w h hw, List.get?_map, List.get?_range hk]
    rfl
  · intro j hj
    have hj' : j < h * w := by rw [Nat.mul_comm h w]; exact hj
    refine ⟨j / w, ⟨?_, ?_, ?_⟩, ?_⟩
    · exact (Nat.div_lt_iff_lt_mul hw).mpr hj'
    · exact Nat.div_mul_le_self j w
    · have hdm : w * (j / w) + j % w = j := Nat.div_add_mod j w
      have hm : j % w < w := Nat.mod_lt j hw
      have hcomm : j / w * w = w * (j / w) := Nat.mul_comm _ _
      omega
    · intro k ⟨_, hlo, hhi⟩
      have : j / w = k := Nat.div_eq_of_lt_le hlo (by rw [Nat.succ_mul]; omega)
      omega

/-- Witness for C2 at w = 3, h = 2: two bands, rows 0 and 1. -/
theorem claim_C2_witness :
    (bands (3 * 2) 3).length = 2 ∧
    (∀ k, k < 2 → (bands (3 * 2) 3).get? k = some (k * 3, 3)) ∧
    (∀ j, j < 3 * 2 → ∃! k, k < 2 ∧ k * 3 ≤ j ∧ j < k * 3 + 3) :=
  claim_C2 3 2 (by decide)

/-- Modelled from the claim's words (C3 / spec §4.4): the claimed policy
divides `height` rows among `workerCount` workers with
`rows_per_band = ⌈height / workerCount⌉`; band `j` starts at row
`j * rows_per_band`, every band except possibly the last has exactly
`rows_per_band` rows, trailing bands may be empty. -/
def ceilBands (height workerCount : ℕ) : List (ℕ × ℕ) :=
  let rows_per_band := (height + workerCount - 1) / workerCount
  (List.range workerCount).map
    (fun j => (j * rows_per_band, min rows_per_band (height - j * rows_per_band)))

/-- The code's bands viewed as row ranges (start row, row count). -/
def rowBands (w h : ℕ) : List (ℕ × ℕ) :=
  (bands (w * h) w).map (fun p => (p.1 / w, p.2 / w))

/-- Counterexample to C3: for a 1×16 image and the program's 8 workers, the
code's partitioner produces 16 one-row bands, not the 8 two-row bands of the
claimed `rows_per_band = ⌈height / worker_count⌉` policy. -/
theorem claim_C3_counterexample :
    rowBands 1 16 ≠ ceilBands 16 8 ∧
    (rowBands 1 16).length = 16 ∧ (ceilBands 16 8).length = 8 := by
  refine ⟨by decide, by decide, by decide⟩

/-- C3 (amended): the partitioner divides the buffer into chunks of
`width` bytes, i.e. one band per pixel row — `height` bands of exactly one
row each, independent of the worker count; the 8 workers pull these one-row
bands dynamically from a shared atomic iterator (so a worker may process
many bands or none). -/
theorem claim_C3 (w h : ℕ) (hw : 0 < w) :
    (bands (w * h) w).length = h ∧
    (∀ p ∈ bands (w * h) w, p.2 = w) ∧
    rowBands w h = (List.range h).map (fun k => (k, 1)) := by
  refine ⟨?_, ?_, ?_⟩
  · rw [bands_eq w h hw]; simp
  · intro p hp
    rw [bands_eq w h hw] at hp
    obtain ⟨k, _, rfl⟩ := List.mem_map.mp hp
    rfl
  · unfold rowBands
    rw [bands_eq w h hw, List.map_map]
    apply List.map_congr_left
    intro k _
    show (k * w / w, w / w) = (k, 1)
    rw [Nat.mul_div_cancel _ hw, Nat.div_self hw]

/-- Witness for C3 (amended) at w = 2, h = 3. -/
theorem claim_C3_witness :
    (bands (2 * 3) 2).length = 3 ∧
    (∀ p ∈ bands (2 * 3) 2, p.2 = 2) ∧
    rowBands 2 3 = (List.range 3).map (fun k => (k, 1)) :=
  claim_C3 2 3 (by decide)

/-!
## Closed form of the rasterizer's write loop
-/

/-- One row of writes: folding `set (base + c)` over `c < w` splices the row's
`w` fresh bytes into the buffer at offset `base`. -/
theorem foldl_set_row (f : ℕ → ℕ) :
    ∀ (w : ℕ) (b : List ℕ) (base : ℕ), base + w ≤ b.length →
      (List.range w).foldl (fun acc c => acc.set (base + c) (f c)) b
        = b.take base ++ (List.range w).map f ++ b.drop (base + w) := by
  intro w
  induction w with
  | zero => intro b base hle; simp
  | succ w ih =>
    intro b base hle
    rw [List.range_succ, List.foldl_append]
    simp only [List.foldl_cons, List.foldl_nil]
    rw [ih b base (by omega)]
    have hbase : base ≤ b.length := by omega
    have hlt : base + w < b.length := by omega
    have hplen : (b.take base ++ (List.range w).map f).length = base + w := by
      simp [Nat.min_eq_left hbase]
    rw [List.set_append_right _ _ (le_of_eq hplen)]
    rw [hplen, Nat.sub_self, List.drop_eq_getElem_cons hlt, List.set_cons_zero]
    simp [List.range_succ, List.append_assoc, Nat.add_assoc]

/-- The whole write loop of `render`: row `r` writes bytes
`[r*w, r*w + w)`, so folding over all rows below `h` replaces the first
`w * h` bytes of the buffer by the flattened rows. -/
theorem foldl_rows (g : ℕ → ℕ → ℕ) (w : ℕ) :
    ∀ (h : ℕ) (b : List ℕ), w * h ≤ b.length →
      (List.range h).foldl
        (fun acc r => (List.range w).foldl
          (fun acc2 c => acc2.set (r * w + c) (g r c)) acc) b
        = ((List.range h).map (fun r => (List.range w).map (g r))).flatten
            ++ b.drop (w * h) := by
  intro h
  induction h with
  | zero => intro b hle; simp
  | succ h ih =>
    intro b hle
    have hstep : w * h + w ≤ b.length := by
      have : w * (h + 1) = w * h + w := by ring
      omega
    rw [List.range_succ, List.foldl_append]
    simp only [List.foldl_cons, List.foldl_nil]
    rw [ih b (by omega)]
    set J := ((List.range h).map (fun r => (List.range w).map (g r))).flatten with hJ
    have hJlen : J.length = h * w := by
      rw [hJ]
      rw [List.length_flatten, List.map_map]
      have : (List.map (List.length ∘ fun r => (List.range w).map (g r))
          (List.range h)) = List.replicate h w := by
        rw [show (List.length ∘ fun r => (List.range w).map (g r))
              = fun _ => w by funext r; simp]
        rw [List.map_const']
        simp
      rw [this, List.sum_const_nat]
    have hc : w * h = h * w := Nat.mul_comm w h
    have hexp : w * (h + 1) = w * h + w := by ring
    have htot : (J ++ b.drop (w * h)).length = b.length := by
      simp only [List.length_append, hJlen, List.length_drop]
      omega
    rw [foldl_set_row (g h) w (J ++ b.drop (w * h)) (h * w) (by omega)]
    have htake : (J ++ b.drop (w * h)).take (h * w) = J :=
      List.take_left' hJlen
    have hdrop : (J ++ b.drop (w * h)).drop (h * w + w) = b.drop (w * (h + 1)) := by
      rw [← List.drop_drop, List.drop_left' hJlen, List.drop_drop, hexp]
    rw [htake, hdrop]
    rw [List.map_append, List.flatten_append]
    simp only [List.map_cons, List.map_nil, List.flatten_cons, List.flatten_nil,
      List.append_nil, List.append_assoc]

/-- Closed form of `renderLoop` on a buffer of the stated size: the output is
the rows in order, row `r` being the bytes of pixels `(c, r)` for `c < w`. -/
theorem renderLoop_eq (param : ℚ × ℚ) (w h : ℕ) (ul lr : ℚ × ℚ) (b : List ℕ)
    (hb : b.length = w * h) :
    renderLoop param (w, h) ul lr b
      = ((List.range h).map (fun r => (List.range w).map
          (fun c => pixelColor param (pixel_to_point (w, h) (c, r) ul lr)))).flatten := by
  have key := foldl_rows
    (fun r c => pixelColor param (pixel_to_point (w, h) (c, r) ul lr)) w h b
    (le_of_eq hb.symm)
  have hdrop : b.drop (w * h) = [] := by rw [← hb, List.drop_length]
  rw [hdrop, List.append_nil] at key
  exact key

/-- Indexing into a flattened list of `h` rows of width `w`. -/
theorem flatten_rows_get (w : ℕ) :
    ∀ (r : ℕ) (g : ℕ → ℕ → ℕ) (h c : ℕ), r < h → c < w →
      (((List.range h).map (fun i => (List.range w).map (g i))).flatten).get?
          (r * w + c) = some (g r c) := by
  intro r
  induction r with
  | zero =>
    intro g h c hr hc
    obtain ⟨h', rfl⟩ : ∃ h', h = h' + 1 := ⟨h - 1, by omega⟩
    rw [List.range_succ_eq_map, List.map_cons, List.flatten_cons]
    rw [Nat.zero_mul, Nat.zero_add]
    rw [List.get?_append (by simpa using hc)]
    rw [List.get?_map, List.get?_range hc]
    rfl
  | succ r ih =>
    intro g h c hr hc
    obtain ⟨h', rfl⟩ : ∃ h', h = h' + 1 := ⟨h - 1, by omega⟩
    rw [List.range_succ_eq_map, List.map_cons, List.flatten_cons]
    rw [List.get?_append_right (by
      simp only [List.length_map, List.length_range]
      calc w = 1 * w := (Nat.one_mul w).symm
        _ ≤ (r + 1) * w := Nat.mul_le_mul_right w (by omega)
        _ ≤ (r + 1) * w + c := Nat.le_add_right _ _)]
    have hidx : (r + 1) * w + c - ((List.range w).map (g 0)).length = r * w + c := by
      simp only [List.length_map, List.length_range]
      rw [Nat.succ_mul]
      omega
    rw [hidx, List.map_map]
    have := ih (fun i => g (i + 1)) h' c (by omega) hc
    simpa [Function.comp] using this

/-- C1 (amended): on a buffer of length `w * h` the rasterizer writes, for
every row `r < h` and column `c < w`, the byte at index `r * w + c` as
`pixelColor param point` where `point = pixel_to_point (w,h) (c,r) ul lr`:
that is, `escapes` is run with the mapped point as the *initial z* and the
render's fixed parameter `param` as the additive constant `c` of
`z ← z² + c` (a Julia set, parameter from the CLI), writing 0 on `none`
and `255 - i` on `some i`. -/
theorem claim_C1 (param : ℚ × ℚ) (w h : ℕ) (ul lr : ℚ × ℚ) (b : List ℕ)
    (hb : b.length = w * h) (r c : ℕ) (hr : r < h) (hc : c < w) :
    ∃ out, render param b (w, h) ul lr = some out ∧
      out.get? (r * w + c)
        = some (pixelColor param (pixel_to_point (w, h) (c, r) ul lr)) := by
  refine ⟨renderLoop param (w, h) ul lr b, ?_, ?_⟩
  · simp [render, hb]
  · rw [renderLoop_eq param w h ul lr b hb]
    exact flatten_rows_get w r
      (fun i c => pixelColor param (pixel_to_point (w, h) (c, i) ul lr)) h c hr hc

/-- Witness for C1 (amended) on a 1×1 image. -/
theorem claim_C1_witness :
    ∃ out, render (5, 5) [0] (1, 1) (0, 0) (1, -1) = some out ∧
      out.get? (0 * 1 + 0)
        = some (pixelColor (5, 5) (pixel_to_point (1, 1) (0, 0) (0, 0) (1, -1))) :=
  claim_C1 (5, 5) 1 1 (0, 0) (1, -1) [0] (by decide) 0 0 (by decide) (by decide)

/-- Modelled from the claim's words (C1 / spec §4.2-§4.3): the byte the claim
prescribes for a mapped point — run the classifier *from z = (0,0)* with the
mapped point as the parameter c of `z ← z² + c`, limit 255; 0 when bounded,
`255 - i` on escape at index `i`. -/
def claimedMandelByte (point : ℚ × ℚ) : ℕ :=
  match escapes (0, 0) point 255 with
  | none => 0
  | some i => 255 - i % 256

/-- Counterexample to C1 as stated: with parameter (5,5) on a 1×1 image over
the plane square (0,0)-(1,-1), pixel (0,0) maps to the point (0,0); the code
writes the byte 255 (the orbit started *at the point* with additive constant
(5,5) escapes at index 0), but the claim prescribes the byte 0 (the orbit of
the Mandelbrot iteration with parameter (0,0) is bounded). -/
theorem claim_C1_counterexample :
    render (5, 5) [0] (1, 1) (0, 0) (1, -1) = some [255] ∧
    claimedMandelByte (pixel_to_point (1, 1) (0, 0) (0, 0) (1, -1)) = 0 := by
  have hpoint : pixel_to_point (1, 1) (0, 0) (0, 0) (1, -1) = ((0 : ℚ), (0 : ℚ)) := by
    unfold pixel_to_point
    norm_num
  have hcolor : pixelColor (5, 5) (0, 0) = 255 := by
    rw [pixelColor_some (5, 5) (0, 0) 0 escapes_five]
  constructor
  · have hloop : renderLoop (5, 5) (1, 1) (0, 0) (1, -1) [0] = [255] := by
      rw [renderLoop_eq (5, 5) 1 1 (0, 0) (1, -1) [0] (by decide)]
      rw [show List.range 1 = [0] from rfl]
      simp only [List.map_cons, List.map_nil, List.flatten_cons, List.flatten_nil]
      rw [hpoint, hcolor]
      rfl
    rw [show render (5, 5) [0] (1, 1) (0, 0) (1, -1)
          = some (renderLoop (5, 5) (1, 1) (0, 0) (1, -1) [0]) from rfl, hloop]
  · rw [hpoint]
    unfold claimedMandelByte
    rw [show escapes (0, 0) ((0 : ℚ), (0 : ℚ)) 255 = none from escapesAux_zero 0 255]

/-!
## Parallel (band-by-band) rendering

In `main` (src/main.rs lines 161-182) each worker, for each pulled
(chunk index `i`, band) pair, computes `top = i`,
`height = band.len() / bounds.0` (= 1, since every chunk is one full row),
`band_bounds = (bounds.0, height)`, derives the band's plane corners by
mapping pixels `(0, top)` and `(bounds.0, top + height)` against the *full*
bounds and full rectangle, and calls `render` on the band slice.
-/

/-- The bytes one band (row `top`) receives from its worker: `render` run on
the one-row slice with the band's derived corners.  The slice's prior
contents (zeros, from `vec![0; ...]` on line 158) are fully overwritten. -/
def bandOutput (param : ℚ × ℚ) (w h top : ℕ) (ul lr : ℚ × ℚ) : List ℕ :=
  renderLoop param (w, 1)
    (pixel_to_point (w, h) (0, top) ul lr)
    (pixel_to_point (w, h) (w, top + 1) ul lr)
    (List.replicate w 0)

/-- The completed buffer of the parallel run.  The atomic chunk iterator
hands every one-row band to exactly one of the `workerCount` spawned
workers; which worker gets which band is scheduling-dependent, but each
band's bytes depend only on the band index, so the assembled buffer is the
concatenation of the per-band outputs whatever the worker count. -/
def renderParallel (workerCount : ℕ) (param : ℚ × ℚ) (w h : ℕ)
    (ul lr : ℚ × ℚ) : List ℕ :=
  ((List.range h).map (fun top => bandOutput param w h top ul lr)).flatten

/-- Band seamlessness: mapping pixel `(c, 0)` of a one-row band whose plane
corners were derived from the full image's coordinate system yields exactly
the full image's point for pixel `(c, top)` (rational arithmetic is exact). -/
theorem band_point_eq (w h top c : ℕ) (hw : 0 < w) (ul lr : ℚ × ℚ) :
    pixel_to_point (w, 1) (c, 0)
      (pixel_to_point (w, h) (0, top) ul lr)
      (pixel_to_point (w, h) (w, top + 1) ul lr)
      = pixel_to_point (w, h) (c, top) ul lr := by
  have hw' : (w : ℚ) ≠ 0 := Nat.cast_ne_zero.mpr (Nat.pos_iff_ne_zero.mp hw)
  unfold pixel_to_point
  dsimp only
  apply Prod.ext
  · push_cast
    field_simp
  · push_cast
    ring

/-- C4: for a fixed `bounds = (w, h)` with positive width and a fixed plane
rectangle, assembling the buffer band-by-band (each band's plane
sub-rectangle derived by mapping pixels `(0, top)` and `(w, top + 1)`
against the full bounds and full rectangle) yields byte-for-byte the same
buffer as one sequential `render` call over the whole buffer, for every
worker count: partitioning never changes any output byte. -/
theorem claim_C4 (workerCount : ℕ) (param : ℚ × ℚ) (w h : ℕ) (hw : 0 < w)
    (ul lr : ℚ × ℚ) (b : List ℕ) (hb : b.length = w * h) :
    renderParallel workerCount param w h ul lr = renderLoop param (w, h) ul lr b := by
  rw [renderLoop_eq param w h ul lr b hb]
  unfold renderParallel
  congr 1
  apply List.map_congr_left
  intro top htop
  have htop' : top < h := List.mem_range.mp htop
  unfold bandOutput
  rw [renderLoop_eq param w 1
    (pixel_to_point (w, h) (0, top) ul lr)
    (pixel_to_point (w, h) (w, top + 1) ul lr)
    (List.replicate w 0) (by simp)]
  rw [show List.range 1 = [0] from rfl]
  simp only [List.map_cons, List.map_nil, List.flatten_cons, List.flatten_nil,
    List.append_nil]
  apply List.map_congr_left
  intro c hc
  rw [band_point_eq w h top c hw ul lr]

/-- Witness for C4: a 2×2 image rendered with 1 worker and band-by-band
equals the sequential render. -/
theorem claim_C4_witness :
    renderParallel 1 (5, 5) 2 2 (0, 0) (1, -1)
      = renderLoop (5, 5) (2, 2) (0, 0) (1, -1) [0, 0, 0, 0] :=
  claim_C4 1 (5, 5) 2 2 (by decide) (0, 0) (1, -1) [0, 0, 0, 0] (by decide)

/-!
## `parse_pair` (src/main.rs lines 15-25)

Strings are modelled as `List Char`.  `s.find(separator)` followed by the
slices `&s[..index]` and `&s[index + 1..]` is modelled by `splitAtFirst`,
which splits at the *first* occurrence of the separator.  The generic
`T::from_str` is a parameter `fromStr : List Char → Option T` (Rust's
`Ok`/`Err` as `some`/`none`).
-/

/-- `s.find(sep)` + slicing: `some (l, r)` when `s = l ++ sep :: r` with the
split at the first occurrence of `sep`; `none` when `sep` does not occur. -/
def splitAtFirst (sep : Char) : List Char → Option (List Char × List Char)
  | [] => none
  | c :: cs =>
    if c = sep then some ([], cs)
    else (splitAtFirst sep cs).map (fun p => (c :: p.1, p.2))

/-- `fn parse_pair<T: FromStr>(s, separator)` (src/main.rs lines 15-25). -/
def parse_pair {T : Type} (fromStr : List Char → Option T) (s : List Char)
    (sep : Char) : Option (T × T) :=
  match splitAtFirst sep s with
  | none => none
  | some (l, r) =>
    match fromStr l, fromStr r with
    | some a, some b => some (a, b)
    | _, _ => none

/-- Unfolding `parse_pair` when the separator is absent. -/
theorem parse_pair_split_none {T : Type} (fromStr : List Char → Option T)
    (s : List Char) (sep : Char) (h : splitAtFirst sep s = none) :
    parse_pair fromStr s sep = none := by
  unfold parse_pair; rw [h]

/-- Unfolding `parse_pair` when both halves parse. -/
theorem parse_pair_split_ok {T : Type} (fromStr : List Char → Option T)
    (s : List Char) (sep : Char) (l r : List Char) (a b : T)
    (h : splitAtFirst sep s = some (l, r))
    (hl : fromStr l = some a) (hr : fromStr r = some b) :
    parse_pair fromStr s sep = some (a, b) := by
  unfold parse_pair
  rw [h]
  show (match fromStr l, fromStr r with
    | some a, some b => some (a, b)
    | _, _ => none) = some (a, b)
  rw [hl, hr]

/-- Unfolding `parse_pair` when the left half fails to parse. -/
theorem parse_pair_split_fail_left {T : Type} (fromStr : List Char → Option T)
    (s : List Char) (sep : Char) (l r : List Char)
    (h : splitAtFirst sep s = some (l, r)) (hl : fromStr l = none) :
    parse_pair fromStr s sep = none := by
  unfold parse_pair
  rw [h]
  show (match fromStr l, fromStr r with
    | some a, some b => some (a, b)
    | _, _ => none) = none
  rw [hl]

/-- Unfolding `parse_pair` when the right half fails to parse. -/
theorem parse_pair_split_fail_right {T : Type} (fromStr : List Char → Option T)
    (s : List Char) (sep : Char) (l r : List Char) (a : T)
    (h : splitAtFirst sep s = some (l, r)) (hl : fromStr l = some a)
    (hr : fromStr r = none) :
    parse_pair fromStr s sep = none := by
  unfold parse_pair
  rw [h]
  show (match fromStr l, fromStr r with
    | some a, some b => some (a, b)
    | _, _ => none) = none
  rw [hl, hr]

/-- `splitAtFirst` characterisation: success means the string is
`l ++ sep :: r` with the separator absent from `l` (first occurrence). -/
theorem splitAtFirst_eq_some (sep : Char) :
    ∀ (s l r : List Char),
      splitAtFirst sep s = some (l, r) ↔ (s = l ++ sep :: r ∧ sep ∉ l) := by
  intro s
  induction s with
  | nil =>
    intro l r
    constructor
    · intro h; exact absurd h (by simp [splitAtFirst])
    · rintro ⟨h, -⟩; exact absurd h.symm (by simp)
  | cons a s ih =>
    intro l r
    by_cases ha : a = sep
    · subst ha
      rw [show splitAtFirst a (a :: s) = some ([], s) from by
        simp [splitAtFirst]]
      constructor
      · intro h
        injection h with hpair
        injection hpair with h1 h2
        subst h1; subst h2
        exact ⟨rfl, by simp⟩
      · rintro ⟨hs, hni⟩
        cases l with
        | nil =>
          simp only [List.nil_append] at hs
          injection hs with h1 h2
          rw [h2]
        | cons x l' =>
          injection hs with h1 h2
          exact absurd (h1 ▸ List.mem_cons_self x l') hni
    · rw [show splitAtFirst sep (a :: s)
          = (splitAtFirst sep s).map (fun p => (a :: p.1, p.2)) from by
        simp only [splitAtFirst, if_neg ha]]
      constructor
      · intro hmap
        cases hsp : splitAtFirst sep s with
        | none => rw [hsp] at hmap; exact absurd hmap (by simp)
        | some p =>
          obtain ⟨l', r'⟩ := p
          rw [hsp] at hmap
          simp only [Option.map_some'] at hmap
          injection hmap with hpair
          injection hpair with h1 h2
          subst h1; subst h2
          obtain ⟨hs, hni⟩ := (ih l' r').mp hsp
          refine ⟨by rw [hs]; rfl, ?_⟩
          intro hmem
          rcases List.mem_cons.mp hmem with h | h
          · exact ha h.symm
          · exact hni h
      · rintro ⟨hs, hni⟩
        cases l with
        | nil =>
          simp only [List.nil_append] at hs
          injection hs with h1 h2
          exact absurd h1 ha
        | cons x l' =>
          injection hs with h1 h2
          subst h1
          have hni' : sep ∉ l' := fun hm => hni (List.mem_cons_of_mem _ hm)
          rw [(ih l' r).mpr ⟨h2, hni'⟩]
          rfl

/-- Generic correctness of `parse_pair`: provided the element parser never
accepts a string containing the separator (true of numeric parsers with the
separators `','` and `'x'` used by `main`), `parse_pair` returns
`some (a, b)` exactly when the input has the form `<left><sep><right>` with
both halves parsing, and `none` otherwise — never a partial result. -/
theorem parse_pair_iff {T : Type} (fromStr : List Char → Option T) (sep : Char)
    (hfree : ∀ (t : List Char) (x : T), fromStr t = some x → sep ∉ t)
    (s : List Char) (a b : T) :
    parse_pair fromStr s sep = some (a, b) ↔
      ∃ l r, s = l ++ sep :: r ∧ fromStr l = some a ∧ fromStr r = some b := by
  constructor
  · intro hp
    cases hsplit : splitAtFirst sep s with
    | none =>
      rw [parse_pair_split_none fromStr s sep hsplit] at hp
      exact absurd hp (by simp)
    | some p =>
      obtain ⟨l, r⟩ := p
      cases hl : fromStr l with
      | none =>
        rw [parse_pair_split_fail_left fromStr s sep l r hsplit hl] at hp
        exact absurd hp (by simp)
      | some x =>
        cases hr : fromStr r with
        | none =>
          rw [parse_pair_split_fail_right fromStr s sep l r x hsplit hl hr] at hp
          exact absurd hp (by simp)
        | some y =>
          rw [parse_pair_split_ok fromStr s sep l r x y hsplit hl hr] at hp
          injection hp with hpair
          injection hpair with h1 h2
          subst h1; subst h2
          obtain ⟨hs, -⟩ := (splitAtFirst_eq_some sep s l r).mp hsplit
          exact ⟨l, r, hs, hl, hr⟩
  · rintro ⟨l, r, rfl, hl, hr⟩
    exact parse_pair_split_ok fromStr _ sep l r a b
      ((splitAtFirst_eq_some sep _ l r).mpr ⟨rfl, hfree l a hl⟩) hl hr

/-- Value of a digit string, most significant first. -/
def digitsToNat (s : List Char) : ℕ :=
  s.foldl (fun n c => 10 * n + (c.toNat - ('0').toNat)) 0

/-- Modelled std parser `<i32 as FromStr>::from_str` (not in src/):
an optional `'+'` or `'-'` sign followed by one or more ASCII digits, any
other character rejected, overflow past the i32 range rejected. -/
def i32_from_str (s : List Char) : Option ℤ :=
  match s with
  | [] => none
  | c :: rest =>
    if c = '+' then
      if rest ≠ [] ∧ rest.all Char.isDigit ∧ (digitsToNat rest : ℤ) ≤ 2147483647
      then some (digitsToNat rest) else none
    else if c = '-' then
      if rest ≠ [] ∧ rest.all Char.isDigit ∧ (digitsToNat rest : ℤ) ≤ 2147483648
      then some (-(digitsToNat rest : ℤ)) else none
    else
      if (c :: rest).all Char.isDigit ∧ (digitsToNat (c :: rest) : ℤ) ≤ 2147483647
      then some (digitsToNat (c :: rest)) else none

/-- Decimal body `digits [ '.' digits ]` as an exact rational. -/
def parseDecimal (s : List Char) : Option ℚ :=
  match splitAtFirst ('.') s with
  | none =>
    if s ≠ [] ∧ s.all Char.isDigit then some ((digitsToNat s : ℕ) : ℚ) else none
  | some (ip, fp) =>
    if (ip ≠ [] ∨ fp ≠ []) ∧ ip.all Char.isDigit ∧ fp.all Char.isDigit then
      some ((digitsToNat ip : ℚ) + (digitsToNat fp : ℚ) / 10 ^ fp.length)
    else none

/-- Modelled std parser `<f64 as FromStr>::from_str` (not in src/),
restricted to the plain decimal forms `sign? digits [ '.' digits ]` the
program's inputs use; exponents, `inf` and `NaN` are omitted, and the value
is kept as an exact rational. -/
def f64_from_str (s : List Char) : Option ℚ :=
  match s with
  | [] => none
  | c :: rest =>
    if c = '+' then parseDecimal rest
    else if c = '-' then (parseDecimal rest).map (fun q => -q)
    else parseDecimal (c :: rest)

/-- Evaluation of the modelled f64 parser on `"0.5"`. -/
theorem f64_half : f64_from_str ("0.5".toList) = some (1 / 2) := by
  rw [show ("0.5".toList) = ['0', '.', '5'] from rfl]
  show (if ('0') = '+' then parseDecimal ['.', '5']
    else if ('0') = '-' then (parseDecimal ['.', '5']).map (fun q => -q)
    else parseDecimal ['0', '.', '5']) = some (1 / 2)
  rw [if_neg (by decide), if_neg (by decide)]
  unfold parseDecimal
  rw [show splitAtFirst ('.') ['0', '.', '5'] = some (['0'], ['5']) from by decide]
  show (if ((['0'] : List Char) ≠ [] ∨ (['5'] : List Char) ≠ [])
        ∧ (['0'] : List Char).all Char.isDigit ∧ (['5'] : List Char).all Char.isDigit
      then some ((digitsToNat ['0'] : ℚ) + (digitsToNat ['5'] : ℚ)
        / 10 ^ (['5'] : List Char).length)
      else none) = some (1 / 2)
  rw [if_pos (by decide)]
  rw [show digitsToNat ['0'] = 0 from rfl, show digitsToNat ['5'] = 5 from rfl,
    show (['5'] : List Char).length = 1 from rfl]
  norm_num

/-- Evaluation of the modelled f64 parser on `"1.5"`. -/
theorem f64_three_halves : f64_from_str ("1.5".toList) = some (3 / 2) := by
  rw [show ("1.5".toList) = ['1', '.', '5'] from rfl]
  show (if ('1') = '+' then parseDecimal ['.', '5']
    else if ('1') = '-' then (parseDecimal ['.', '5']).map (fun q => -q)
    else parseDecimal ['1', '.', '5']) = some (3 / 2)
  rw [if_neg (by decide), if_neg (by decide)]
  unfold parseDecimal
  rw [show splitAtFirst ('.') ['1', '.', '5'] = some (['1'], ['5']) from by decide]
  show (if ((['1'] : List Char) ≠ [] ∨ (['5'] : List Char) ≠ [])
        ∧ (['1'] : List Char).all Char.isDigit ∧ (['5'] : List Char).all Char.isDigit
      then some ((digitsToNat ['1'] : ℚ) + (digitsToNat ['5'] : ℚ)
        / 10 ^ (['5'] : List Char).length)
      else none) = some (3 / 2)
  rw [if_pos (by decide)]
  rw [show digitsToNat ['1'] = 1 from rfl, show digitsToNat ['5'] = 5 from rfl,
    show (['5'] : List Char).length = 1 from rfl]
  norm_num

/-- C9: `parse_pair` returns `some (left, right)` exactly when the input has
the form `<left><sep><right>` with both halves parseable (for any element
parser that never accepts a separator-containing string, as the numeric
parsers here never do), and `none` otherwise — never a partial result; in
particular `parse_pair::<i32>("10,20", ',') == Some((10,20))`,
`parse_pair::<i32>("10,", ',') == None`, and
`parse_pair::<f64>("0.5x1.5", 'x') == Some((0.5, 1.5))`. -/
theorem claim_C9 :
    (∀ (T : Type) (fromStr : List Char → Option T) (sep : Char),
      (∀ (t : List Char) (x : T), fromStr t = some x → sep ∉ t) →
      ∀ (s : List Char) (a b : T),
        parse_pair fromStr s sep = some (a, b) ↔
          ∃ l r, s = l ++ sep :: r ∧ fromStr l = some a ∧ fromStr r = some b) ∧
    parse_pair i32_from_str ("10,20".toList) (',') = some (10, 20) ∧
    parse_pair i32_from_str ("10,".toList) (',') = none ∧
    parse_pair f64_from_str ("0.5x1.5".toList) ('x') = some (1 / 2, 3 / 2) := by
  refine ⟨fun T fromStr sep hfree s a b => parse_pair_iff fromStr sep hfree s a b,
    ?_, ?_, ?_⟩
  · decide
  · decide
  · exact parse_pair_split_ok f64_from_str _ ('x') ("0.5".toList) ("1.5".toList)
      (1 / 2) (3 / 2) (by decide) f64_half f64_three_halves

/-- Witness for C9's generic clause at a one-element parser on the input
`"1,1"`. -/
theorem claim_C9_witness :
    parse_pair (fun t => if t = ['1'] then some 1 else none) ['1', ',', '1'] (',')
        = some (1, 1) ↔
      ∃ l r, ['1', ',', '1'] = l ++ (',') :: r
        ∧ (if l = ['1'] then some 1 else none) = some 1
        ∧ (if r = ['1'] then some 1 else none) = some 1 :=
  claim_C9.1 ℕ (fun t => if t = ['1'] then some 1 else none) (',')
    (by
      intro t x h
      by_cases ht : t = ['1']
      · rw [ht]; decide
      · have h' : (if t = ['1'] then some (1 : ℕ) else none) = some x := h
        rw [if_neg ht] at h'
        exact absurd h' (by simp))
    ['1', ',', '1'] 1 1

end Mandel
